import Mathlib

/-!
Verification of the content schema engine and rendering pipeline of
`the-simplest-cms` (archival). The Rust sources `object_definition.rs` and
`page.rs` are embedded shallowly: TOML tables become ordered association
lists, `HashMap`s become association lists with overwriting insertion, and
the liquid template engine's value model becomes the inductive `LValue`.
Modules that the repository references but whose sources are not available
(`reserved_fields`, `field_value`, `object`) are modelled from the spec;
each such definition is marked in its doc comment.
-/

namespace Cms

/-- Association-list lookup (first match), modelling map lookup. -/
def lookupA {α : Type} : List (String × α) → String → Option α
  | [], _ => none
  | (k', v) :: rest, k => if k' = k then some v else lookupA rest k

/-- Association-list insertion that overwrites an existing key in place and
otherwise appends, modelling `HashMap::insert` / map insertion. -/
def insertA {α : Type} : List (String × α) → String → α → List (String × α)
  | [], k, v => [(k, v)]
  | (k', v') :: rest, k, v =>
    if k' = k then (k, v) :: rest else (k', v') :: insertA rest k v

/-- Modelled from the spec: `reserved_fields.rs` is not among the available
sources. The spec reserves "a fixed keyword reserved for the per-schema
template identifier, plus any other globally reserved metadata keys"; the
metadata keys it names are the render-injected `object_name`, `order` and
`path`. -/
def reservedFieldNames : List String :=
  ["template", "object_name", "order", "path"]

/-- Modelled from the spec: `reserved_fields::TEMPLATE`, the reserved
template keyword. -/
def TEMPLATE : String := "template"

/-- Modelled from the spec: `reserved_fields::is_reserved_field`. -/
def is_reserved_field (s : String) : Bool :=
  reservedFieldNames.contains s

/-- Modelled from the spec: the `DateTime` carried by date field values.
The payload is an abstract instant; `now` is the distinguished current
instant used for defaults. -/
structure DateTime where
  instant : String
deriving DecidableEq, Repr

/-- Modelled from the spec: `DateTime::now()`, the current instant. -/
def DateTime.now : DateTime := ⟨"now"⟩

/-- The TOML value model, as far as `object_definition.rs` observes it via
`as_table` and `as_str`: strings, nested tables (ordered entry lists with
the keys of a map), and other scalars which are neither. -/
inductive TomlValue where
  | str (s : String)
  | table (t : List (String × TomlValue))
  | int (n : Int)
  | boolean (b : Bool)
deriving Repr

/-- `Value::as_table().is_some()`. -/
def TomlValue.isTable : TomlValue → Bool
  | .table _ => true
  | _ => false

/-- `Value::as_str().is_some()`. -/
def TomlValue.isStr : TomlValue → Bool
  | .str _ => true
  | _ => false

/-- `FieldType` from `object_definition.rs`. -/
inductive FieldType where
  | string
  | number
  | date
  | markdown
  | boolean
deriving DecidableEq, Repr

/-- `InvalidFieldError` from `object_definition.rs`. -/
inductive InvalidFieldError where
  | UnrecognizedType (s : String)
  | InvalidDate (s : String)
  | TypeMismatch (field field_type value : String)
  | InvalidChild (key : String) (index : Nat) (child : String)
  | NotAnArray (key : String) (value : String)
  | ReservedObjectNameError (s : String)
deriving DecidableEq, Repr

/-- Modelled from the spec: `ReservedFieldError` from `reserved_fields.rs`,
carrying the offending reserved field. -/
structure ReservedFieldError where
  field : String
deriving DecidableEq, Repr

/-- The `Box<dyn Error>` results that `ObjectDefinition::new` can actually
return: an `InvalidFieldError` or a `ReservedFieldError`. -/
inductive DefError where
  | invalid (e : InvalidFieldError)
  | reservedField (e : ReservedFieldError)
deriving DecidableEq, Repr

namespace FieldType

/-- `FieldType::from_str` from `object_definition.rs`. -/
def from_str (s : String) : Except InvalidFieldError FieldType :=
  if s = "string" then .ok .string
  else if s = "number" then .ok .number
  else if s = "date" then .ok .date
  else if s = "markdown" then .ok .markdown
  else if s = "boolean" then .ok .boolean
  else .error (.UnrecognizedType s)

/-- `FieldType::to_str` from `object_definition.rs`. -/
def to_str : FieldType → String
  | .string => "string"
  | .number => "number"
  | .date => "date"
  | .markdown => "markdown"
  | .boolean => "boolean"

end FieldType

/-- Modelled from the spec: `FieldValue` from `field_value.rs` — a tagged
union matching `FieldType`, plus a recursive `Objects` variant holding an
ordered sequence of nested field-name-to-value maps. Numbers are modelled
as rationals ("numeric zero" is exact). -/
inductive FieldValue where
  | string (s : String)
  | number (q : ℚ)
  | date (d : DateTime)
  | markdown (s : String)
  | boolean (b : Bool)
  | objects (children : List (List (String × FieldValue)))
deriving Repr

/-- `FieldType::default_value` from `object_definition.rs`. -/
def FieldType.default_value : FieldType → FieldValue
  | .string => .string ""
  | .number => .number 0
  | .date => .date DateTime.now
  | .markdown => .markdown ""
  | .boolean => .boolean false

/-- `ObjectDefinition` from `object_definition.rs`; the `HashMap` fields
become association lists. -/
structure ObjectDefinition where
  name : String
  fields : List (String × FieldType)
  field_order : List String
  template : Option String
  children : List (String × ObjectDefinition)
deriving Repr

mutual

/-- `ObjectDefinition::new` from `object_definition.rs`: reject a reserved
schema name, then fold the table's entries in order through `newLoop`. -/
def ObjectDefinition.new (name : String) (definition : List (String × TomlValue)) :
    Except DefError ObjectDefinition :=
  if is_reserved_field name then
    .error (.invalid (.ReservedObjectNameError name))
  else
    newLoop { name := name, fields := [], field_order := [],
              template := none, children := [] } definition

/-- The entry loop of `ObjectDefinition::new`: push every key onto
`field_order`, recurse on nested tables into `children`, treat the string
keyed by the template keyword as the template binding, reject other
reserved string keys, parse remaining strings as field types, and ignore
values that are neither tables nor strings. -/
def newLoop (obj_def : ObjectDefinition) :
    List (String × TomlValue) → Except DefError ObjectDefinition
  | [] => .ok obj_def
  | (key, m_value) :: rest =>
    let acc := { obj_def with field_order := obj_def.field_order ++ [key] }
    match m_value with
    | .table child_table =>
      match ObjectDefinition.new key child_table with
      | .error e => .error e
      | .ok child =>
        newLoop { acc with children := insertA acc.children key child } rest
    | .str value =>
      if key = TEMPLATE then
        newLoop { acc with template := some value } rest
      else if is_reserved_field key then
        .error (.reservedField ⟨key⟩)
      else
        match FieldType.from_str value with
        | .error e => .error (.invalid e)
        | .ok ft => newLoop { acc with fields := insertA acc.fields key ft } rest
    | _ => newLoop acc rest

end

/-- The entry loop of `ObjectDefinition::from_table`, accumulating the
`objects` map. -/
def fromTableLoop (objects : List (String × ObjectDefinition)) :
    List (String × TomlValue) → Except DefError (List (String × ObjectDefinition))
  | [] => .ok objects
  | (name, m_def) :: rest =>
    match m_def with
    | .table def_table =>
      match ObjectDefinition.new name def_table with
      | .error e => .error e
      | .ok od => fromTableLoop (insertA objects name od) rest
    | _ => fromTableLoop objects rest

/-- `ObjectDefinition::from_table` from `object_definition.rs`: parse every
table-valued top-level entry, skip the rest. -/
def ObjectDefinition.from_table (table : List (String × TomlValue)) :
    Except DefError (List (String × ObjectDefinition)) :=
  fromTableLoop [] table

/-- `TemplateType` from `page.rs`. -/
inductive TemplateType where
  | Default
  | Html
  | Css
  | Csv
  | Json
  | Rss
  | Unknown (r : String)
deriving DecidableEq, Repr

/-- `str::to_lowercase`, modelled character by character (the extensions
involved are ASCII). -/
def toLowercase (s : String) : String :=
  ⟨s.data.map Char.toLower⟩

/-- `TemplateType::from_ext` from `page.rs`. -/
def TemplateType.from_ext (ext : String) : TemplateType :=
  let l := toLowercase ext
  if l = "html" then .Html
  else if l = "css" then .Css
  else if l = "csv" then .Csv
  else if l = "json" then .Json
  else if l = "rss" then .Rss
  else if l = "" then .Default
  else .Unknown l

/-- `TemplateType::extension` from `page.rs` (note the source maps `Csv`
to `"css"`). -/
def TemplateType.extension : TemplateType → String
  | .Default => "html"
  | .Html => "html"
  | .Css => "css"
  | .Csv => "css"
  | .Json => "json"
  | .Rss => "rss"
  | .Unknown r => r

/-- The liquid template engine's native value model (`liquid::model::Value`),
as far as `page.rs` builds contexts from it. -/
inductive LValue where
  | str (s : String)
  | int (n : Int)
  | num (q : ℚ)
  | bool (b : Bool)
  | arr (xs : List LValue)
  | obj (entries : List (String × LValue))
deriving Repr

/-- `liquid::model::Object::extend`: insert every entry of `updates`,
overwriting existing keys. -/
def extendA {α : Type} (base : List (String × α)) (updates : List (String × α)) :
    List (String × α) :=
  updates.foldl (fun acc p => insertA acc p.1 p.2) base

/-- Modelled from the spec: the content `Object` from `object.rs` — one
typed record instantiating a schema, with filename, schema name, computed
output path, signed ranking value, and the field-name-to-value map. -/
structure Object where
  filename : String
  object_name : String
  path : String
  order : Int
  values : List (String × FieldValue)

mutual

/-- Modelled from the spec: each `FieldValue`'s own to-native conversion
into the template engine's value model. Markdown becomes HTML and a date
becomes formatted text only at this step; the two text conversions (`md`
for markdown-to-HTML, `df` for date formatting) are external collaborators
passed as parameters. -/
def FieldValue.toLiquid (md : String → String) (df : DateTime → String) :
    FieldValue → LValue
  | .string s => .str s
  | .number q => .num q
  | .date d => .str (df d)
  | .markdown s => .str (md s)
  | .boolean b => .bool b
  | .objects children => .arr (toLiquidList md df children)

/-- Conversion of a sequence of nested child records. -/
def toLiquidList (md : String → String) (df : DateTime → String) :
    List (List (String × FieldValue)) → List LValue
  | [] => []
  | vals :: rest => .obj (toLiquidEntries md df vals) :: toLiquidList md df rest

/-- Conversion of one field-name-to-value map, entry by entry. -/
def toLiquidEntries (md : String → String) (df : DateTime → String) :
    List (String × FieldValue) → List (String × LValue)
  | [] => []
  | (k, v) :: rest => (k, v.toLiquid md df) :: toLiquidEntries md df rest

end

/-- Modelled from the spec: `values.to_value()` — the native representation
of a values map is the nested key/value structure mirroring `values`. -/
def valuesToValue (md : String → String) (df : DateTime → String)
    (values : List (String × FieldValue)) : LValue :=
  .obj (toLiquidEntries md df values)

/-- Modelled from the spec: `Object::liquid_object` — an object converted to
the template engine's native value representation. -/
def Object.liquid_object (md : String → String) (df : DateTime → String)
    (o : Object) : LValue :=
  valuesToValue md df o.values

/-- `PageTemplate` from `page.rs`. -/
structure PageTemplate where
  definition : ObjectDefinition
  object : Object
  content : String
  file_type : TemplateType

/-- `Page` from `page.rs`. -/
structure Page where
  name : String
  content : Option String
  template : Option PageTemplate
  file_type : TemplateType

/-- `Page::new_with_template` from `page.rs`. -/
def Page.new_with_template (name : String) (definition : ObjectDefinition)
    (object : Object) (content : String) (file_type : TemplateType) : Page :=
  { name := name
    content := none
    template := some { definition := definition, object := object,
                       content := content, file_type := file_type }
    file_type := file_type }

/-- `Page::new` from `page.rs`. -/
def Page.new (name : String) (content : String) (file_type : TemplateType) : Page :=
  { name := name, content := some content, template := none, file_type := file_type }

/-- The observable outcome of `Page::render`, stopping at the boundary of
the external template engine: the assembled context together with the
template source handed to the parser, the `InvalidPageError` branch, or the
final `panic!`. -/
inductive RenderResult where
  | rendered (context : List (String × LValue)) (templateSrc : String)
  | invalidPage
  | panicNoTemplate

/-- `Page::render` from `page.rs`, up to the template-engine boundary:
build the `objects` global from the objects map, bind `page` to the page's
name, then either enrich and wrap the target object under the schema's name
and merge the globals over it, or render the page's own content against the
globals alone. -/
def Page.render (md : String → String) (df : DateTime → String) (p : Page)
    (objects_map : List (String × List Object)) : RenderResult :=
  let objects : List (String × LValue) :=
    objects_map.map fun pr => (pr.1, LValue.arr (pr.2.map (Object.liquid_object md df)))
  let globals : List (String × LValue) :=
    [("objects", LValue.obj objects), ("page", LValue.str p.name)]
  match p.template with
  | some template_info =>
    match valuesToValue md df template_info.object.values with
    | .obj v =>
      let object_vals := extendA v
        [("object_name", LValue.str template_info.object.object_name),
         ("order", LValue.int template_info.object.order),
         ("path", LValue.str template_info.object.path)]
      let context := [(template_info.definition.name, LValue.obj object_vals)]
      .rendered (extendA context globals) template_info.content
    | _ => .invalidPage
  | none =>
    match p.content with
    | some content => .rendered globals content
    | none => .panicNoTemplate

/-! ### Association-list lemmas -/

theorem lookupA_insertA_self {α : Type} (l : List (String × α)) (k : String) (v : α) :
    lookupA (insertA l k v) k = some v := by
  induction l with
  | nil => simp [insertA, lookupA]
  | cons p rest ih =>
    obtain ⟨k0, v0⟩ := p
    by_cases h : k0 = k <;> simp [insertA, lookupA, h, ih]

theorem lookupA_insertA_ne {α : Type} (l : List (String × α)) {k k' : String} (v : α)
    (h : k' ≠ k) : lookupA (insertA l k' v) k = lookupA l k := by
  induction l with
  | nil => simp [insertA, lookupA, h]
  | cons p rest ih =>
    obtain ⟨k0, v0⟩ := p
    by_cases h0 : k0 = k' <;> by_cases h1 : k0 = k <;>
      simp_all [insertA, lookupA]

theorem mem_keys_insertA {α : Type} (l : List (String × α)) (k k0 : String) (v : α) :
    k0 ∈ (insertA l k v).map Prod.fst ↔ k0 = k ∨ k0 ∈ l.map Prod.fst := by
  induction l with
  | nil => simp [insertA]
  | cons p rest ih =>
    obtain ⟨k1, v1⟩ := p
    by_cases h : k1 = k
    · simp [insertA, h]
    · simp [insertA, h, ih]
      tauto

theorem mem_insertA {α : Type} (l : List (String × α)) (k : String) (v : α)
    {p : String × α} (h : p ∈ insertA l k v) : p = (k, v) ∨ p ∈ l := by
  induction l with
  | nil => simp [insertA] at h; simp [h]
  | cons q rest ih =>
    obtain ⟨k1, v1⟩ := q
    by_cases h1 : k1 = k
    · simp only [insertA, if_pos h1] at h
      rcases List.mem_cons.mp h with h | h
      · exact Or.inl h
      · exact Or.inr (List.mem_cons_of_mem _ h)
    · simp only [insertA, if_neg h1] at h
      rcases List.mem_cons.mp h with h | h
      · exact Or.inr (h ▸ List.mem_cons_self _ _)
      · rcases ih h with h | h
        · exact Or.inl h
        · exact Or.inr (List.mem_cons_of_mem _ h)

/-! ### C4: default values -/

/-- C4: `FieldType::default_value` returns each type's zero value: the empty
string, numeric zero, the current instant for dates, the empty markdown
string, and `false` for booleans. -/
theorem default_value_zero :
    FieldType.default_value .string = .string "" ∧
    FieldType.default_value .number = .number 0 ∧
    FieldType.default_value .date = .date DateTime.now ∧
    FieldType.default_value .markdown = .markdown "" ∧
    FieldType.default_value .boolean = .boolean false :=
  ⟨rfl, rfl, rfl, rfl, rfl⟩

/-! ### C5: field-type name parsing -/

/-- C5: `FieldType::from_str` succeeds exactly on the five literal type
names, returning a value whose `to_str` is the original name, and fails
with `UnrecognizedType` carrying the offending string on every other
input. -/
theorem from_str_exactly_five (s : String) :
    ((s = "string" ∨ s = "number" ∨ s = "date" ∨ s = "markdown" ∨ s = "boolean") →
      ∃ t, FieldType.from_str s = .ok t ∧ t.to_str = s) ∧
    (¬(s = "string" ∨ s = "number" ∨ s = "date" ∨ s = "markdown" ∨ s = "boolean") →
      FieldType.from_str s = .error (.UnrecognizedType s)) := by
  constructor
  · rintro (rfl | rfl | rfl | rfl | rfl)
    · exact ⟨.string, rfl, rfl⟩
    · exact ⟨.number, rfl, rfl⟩
    · exact ⟨.date, rfl, rfl⟩
    · exact ⟨.markdown, rfl, rfl⟩
    · exact ⟨.boolean, rfl, rfl⟩
  · intro h
    unfold FieldType.from_str
    split_ifs with h1 h2 h3 h4 h5 <;> simp_all

/-- Witness for C5 at the concrete inputs `"string"` and `"float"`. -/
theorem from_str_exactly_five_witness :
    (∃ t, FieldType.from_str "string" = .ok t ∧ t.to_str = "string") ∧
    FieldType.from_str "float" = .error (.UnrecognizedType "float") :=
  ⟨(from_str_exactly_five "string").1 (Or.inl rfl),
   (from_str_exactly_five "float").2 (by decide)⟩

/-! ### C9: template-type extension round-trip -/

/-- C9 is false as stated: at the extension `"csv"`, `from_ext` followed by
`extension` yields `"css"`, not the original string. -/
theorem from_ext_extension_csv_mismatch :
    TemplateType.extension (TemplateType.from_ext "csv") = "css" ∧
    TemplateType.extension (TemplateType.from_ext "csv") ≠ "csv" :=
  ⟨rfl, by decide⟩

/-- C9 amended: `from_ext` followed by `extension` round-trips on `"html"`,
`"css"`, `"json"` and `"rss"`, but maps `"csv"` to `"css"`. -/
theorem from_ext_extension_roundtrip :
    TemplateType.extension (TemplateType.from_ext "html") = "html" ∧
    TemplateType.extension (TemplateType.from_ext "css") = "css" ∧
    TemplateType.extension (TemplateType.from_ext "json") = "json" ∧
    TemplateType.extension (TemplateType.from_ext "rss") = "rss" ∧
    TemplateType.extension (TemplateType.from_ext "csv") = "css" :=
  ⟨rfl, rfl, rfl, rfl, rfl⟩

/-! ### C8: pages always have a template or content -/

/-- C8: every `Page` built by `Page::new` has its content set and every
`Page` built by `Page::new_with_template` has its template set, so
`Page::render` always takes the template branch or the content branch and
the final panic is unreachable. -/
theorem page_constructors_never_panic (md : String → String) (df : DateTime → String)
    (name : String) (definition : ObjectDefinition) (object : Object)
    (content : String) (ft : TemplateType) (om : List (String × List Object)) :
    ((Page.new name content ft).content.isSome = true ∧
      ∃ ctx src, (Page.new name content ft).render md df om = .rendered ctx src) ∧
    ((Page.new_with_template name definition object content ft).template.isSome = true ∧
      ∃ ctx src,
        (Page.new_with_template name definition object content ft).render md df om =
          .rendered ctx src) :=
  ⟨⟨rfl, _, content, rfl⟩, ⟨rfl, _, content, rfl⟩⟩

/-! ### C7: plain-page rendering context -/

/-- C7: a plain page built by `Page::new` renders its own body as the
template against a context holding exactly the `objects` global (each
schema name mapped to the ordered conversions of its objects) and the
`page` global bound to the page's name. -/
theorem plain_page_render_context (md : String → String) (df : DateTime → String)
    (name content : String) (ft : TemplateType) (om : List (String × List Object)) :
    (Page.new name content ft).render md df om =
      .rendered
        [("objects",
          .obj (om.map fun pr => (pr.1, .arr (pr.2.map (Object.liquid_object md df))))),
         ("page", .str name)]
        content :=
  rfl

/-! ### C1: schema-bound rendering context -/

/-- The enriched object map built by the template branch of `Page::render`:
the target object's converted values extended with the three metadata
keys. -/
def enrichedObjectVals (md : String → String) (df : DateTime → String)
    (o : Object) : List (String × LValue) :=
  extendA (toLiquidEntries md df o.values)
    [("object_name", .str o.object_name), ("order", .int o.order), ("path", .str o.path)]

/-- The `objects`/`page` globals built by `Page::render`. -/
def pageGlobals (md : String → String) (df : DateTime → String)
    (name : String) (om : List (String × List Object)) : List (String × LValue) :=
  [("objects", .obj (om.map fun pr => (pr.1, .arr (pr.2.map (Object.liquid_object md df))))),
   ("page", .str name)]

/-- C1 amended: a schema-bound page renders its bound template against the
merge of the schema-named enriched object map with the `objects`/`page`
globals; the enrichment adds exactly the three metadata keys and leaves all
other keys of the converted value map untouched, and the merged globals
leave the schema-named key intact whenever the schema's name is neither
`objects` nor `page` (when it is one of those, the corresponding global
replaces it). -/
theorem template_page_render_context (md : String → String) (df : DateTime → String)
    (p : Page) (ti : PageTemplate) (om : List (String × List Object))
    (hti : p.template = some ti) :
    p.render md df om =
      .rendered
        (extendA [(ti.definition.name, .obj (enrichedObjectVals md df ti.object))]
          (pageGlobals md df p.name om))
        ti.content ∧
    lookupA (enrichedObjectVals md df ti.object) "object_name" =
      some (.str ti.object.object_name) ∧
    lookupA (enrichedObjectVals md df ti.object) "order" = some (.int ti.object.order) ∧
    lookupA (enrichedObjectVals md df ti.object) "path" = some (.str ti.object.path) ∧
    (∀ k, k ≠ "object_name" → k ≠ "order" → k ≠ "path" →
      lookupA (enrichedObjectVals md df ti.object) k =
        lookupA (toLiquidEntries md df ti.object.values) k) ∧
    lookupA
      (extendA [(ti.definition.name, .obj (enrichedObjectVals md df ti.object))]
        (pageGlobals md df p.name om)) "objects" =
      some (.obj (om.map fun pr => (pr.1, .arr (pr.2.map (Object.liquid_object md df))))) ∧
    lookupA
      (extendA [(ti.definition.name, .obj (enrichedObjectVals md df ti.object))]
        (pageGlobals md df p.name om)) "page" = some (.str p.name) ∧
    (ti.definition.name ≠ "objects" → ti.definition.name ≠ "page" →
      lookupA
        (extendA [(ti.definition.name, .obj (enrichedObjectVals md df ti.object))]
          (pageGlobals md df p.name om)) ti.definition.name =
        some (.obj (enrichedObjectVals md df ti.object))) := by
  refine ⟨?_, ?_, ?_, ?_, ?_, ?_, ?_, ?_⟩
  · simp only [Page.render, hti, valuesToValue, enrichedObjectVals, pageGlobals]
  · simp only [enrichedObjectVals, extendA, List.foldl]
    rw [lookupA_insertA_ne _ _ (by decide), lookupA_insertA_ne _ _ (by decide),
      lookupA_insertA_self]
  · simp only [enrichedObjectVals, extendA, List.foldl]
    rw [lookupA_insertA_ne _ _ (by decide), lookupA_insertA_self]
  · simp only [enrichedObjectVals, extendA, List.foldl]
    rw [lookupA_insertA_self]
  · intro k h1 h2 h3
    simp only [enrichedObjectVals, extendA, List.foldl]
    rw [lookupA_insertA_ne _ _ (Ne.symm h3), lookupA_insertA_ne _ _ (Ne.symm h2),
      lookupA_insertA_ne _ _ (Ne.symm h1)]
  · simp only [extendA, pageGlobals, List.foldl]
    rw [lookupA_insertA_ne _ _ (by decide), lookupA_insertA_self]
  · simp only [extendA, pageGlobals, List.foldl]
    rw [lookupA_insertA_self]
  · intro h1 h2
    simp only [extendA, pageGlobals, List.foldl]
    rw [lookupA_insertA_ne _ _ (Ne.symm h2), lookupA_insertA_ne _ _ (Ne.symm h1),
      lookupA]
    simp

/-- Witness for C1 at a concrete schema-bound page. -/
theorem template_page_render_context_witness :
    (Page.new_with_template "pg" ⟨"artist", [], [], none, []⟩
        ⟨"f", "artist", "artist/f", 2, [("name", .string "Bob")]⟩ "tpl" .Default).render
        (fun s => s) (fun d => d.instant) [] =
      .rendered
        (extendA
          [("artist",
            .obj (enrichedObjectVals (fun s => s) (fun d => d.instant)
              ⟨"f", "artist", "artist/f", 2, [("name", .string "Bob")]⟩))]
          (pageGlobals (fun s => s) (fun d => d.instant) "pg" []))
        "tpl" ∧
    lookupA
      (extendA
        [("artist",
          .obj (enrichedObjectVals (fun s => s) (fun d => d.instant)
            ⟨"f", "artist", "artist/f", 2, [("name", .string "Bob")]⟩))]
        (pageGlobals (fun s => s) (fun d => d.instant) "pg" [])) "artist" =
      some (.obj (enrichedObjectVals (fun s => s) (fun d => d.instant)
        ⟨"f", "artist", "artist/f", 2, [("name", .string "Bob")]⟩)) := by
  have h := template_page_render_context (fun s => s) (fun d => d.instant)
    (Page.new_with_template "pg" ⟨"artist", [], [], none, []⟩
      ⟨"f", "artist", "artist/f", 2, [("name", .string "Bob")]⟩ "tpl" .Default)
    ⟨⟨"artist", [], [], none, []⟩, ⟨"f", "artist", "artist/f", 2, [("name", .string "Bob")]⟩,
      "tpl", .Default⟩
    [] rfl
  exact ⟨h.1, h.2.2.2.2.2.2.2 (by decide) (by decide)⟩

/-- C1 is false as stated for a schema named `objects`: merging the globals
replaces the schema-named binding with the `objects` global, so the context
no longer binds the schema's name to the enriched object map. -/
theorem schema_named_objects_overwritten :
    (Page.new_with_template "pg" ⟨"objects", [], [], none, []⟩ ⟨"f", "objects", "p", 0, []⟩
        "body" .Default).render (fun s => s) (fun d => d.instant) [] =
      .rendered [("objects", .obj []), ("page", .str "pg")] "body" ∧
    lookupA [(("objects" : String), LValue.obj []), ("page", .str "pg")] "objects" =
      some (.obj []) ∧
    LValue.obj [] ≠
      .obj (enrichedObjectVals (fun s => s) (fun d => d.instant) ⟨"f", "objects", "p", 0, []⟩) := by
  refine ⟨?_, rfl, ?_⟩
  · simp [Page.render, Page.new_with_template, valuesToValue, toLiquidEntries, extendA,
      insertA, lookupA]
  · simp [enrichedObjectVals, toLiquidEntries, extendA, insertA]

/-! ### Loop lemmas for `ObjectDefinition::new` -/

/-- With unique keys, an association list determines values. -/
theorem keys_nodup_eq {α : Type} {l : List (String × α)} (h : (l.map Prod.fst).Nodup)
    {k : String} {a b : α} (ha : (k, a) ∈ l) (hb : (k, b) ∈ l) : a = b := by
  induction l with
  | nil => cases ha
  | cons p rest ih =>
    obtain ⟨k0, v0⟩ := p
    simp only [List.map_cons, List.nodup_cons] at h
    rcases List.mem_cons.mp ha with ha' | ha'
    · rcases List.mem_cons.mp hb with hb' | hb'
      · rw [Prod.mk.injEq] at ha' hb'
        rw [ha'.2, hb'.2]
      · rw [Prod.mk.injEq] at ha'
        have hm : k ∈ List.map Prod.fst rest := List.mem_map_of_mem Prod.fst hb'
        rw [ha'.1] at hm
        exact absurd hm h.1
    · rcases List.mem_cons.mp hb with hb' | hb'
      · rw [Prod.mk.injEq] at hb'
        have hm : k ∈ List.map Prod.fst rest := List.mem_map_of_mem Prod.fst ha'
        rw [hb'.1] at hm
        exact absurd hm h.1
      · exact ih h.2 ha' hb'

/-- The loop of `ObjectDefinition::new` appends every key of the remaining
entries, in order, to the accumulated `field_order`. -/
theorem newLoop_field_order (l : List (String × TomlValue)) :
    ∀ acc od, newLoop acc l = .ok od → od.field_order = acc.field_order ++ l.map Prod.fst := by
  induction l with
  | nil =>
    intro acc od h
    simp only [newLoop] at h
    cases h
    simp
  | cons p rest ih =>
    intro acc od h
    obtain ⟨key, v⟩ := p
    cases v with
    | table t =>
      simp only [newLoop] at h
      split at h
      · cases h
      · have := ih _ _ h
        simpa using this
    | str s =>
      simp only [newLoop] at h
      split_ifs at h with h1 h2
      · have := ih _ _ h
        simpa using this
      · split at h
        · cases h
        · have := ih _ _ h
          simpa using this
    | int n =>
      simp only [newLoop] at h
      have := ih _ _ h
      simpa using this
    | boolean b =>
      simp only [newLoop] at h
      have := ih _ _ h
      simpa using this

/-- Frame/skip lemma: keys whose every occurrence carries a value that is
neither a table nor a string (in particular keys that do not occur at all)
keep their `fields` and `children` lookups through the loop. -/
theorem newLoop_skip (l : List (String × TomlValue)) :
    ∀ acc od k, newLoop acc l = .ok od →
    (∀ v, (k, v) ∈ l → v.isTable = false ∧ v.isStr = false) →
    lookupA od.fields k = lookupA acc.fields k ∧
    lookupA od.children k = lookupA acc.children k := by
  induction l with
  | nil =>
    intro acc od k h _
    simp only [newLoop] at h
    cases h
    exact ⟨rfl, rfl⟩
  | cons p rest ih =>
    intro acc od k h hk
    obtain ⟨key, v⟩ := p
    have hrest : ∀ v, (k, v) ∈ rest → v.isTable = false ∧ v.isStr = false :=
      fun v hv => hk v (List.mem_cons_of_mem _ hv)
    by_cases hkey : key = k
    · subst hkey
      cases v with
      | table t => exact absurd (hk _ (List.mem_cons_self _ _)).1 (by simp [TomlValue.isTable])
      | str s => exact absurd (hk _ (List.mem_cons_self _ _)).2 (by simp [TomlValue.isStr])
      | int n =>
        simp only [newLoop] at h
        have := ih _ _ key h hrest
        exact this
      | boolean b =>
        simp only [newLoop] at h
        have := ih _ _ key h hrest
        exact this
    · cases v with
      | table t =>
        simp only [newLoop] at h
        split at h
        · cases h
        · have := ih _ _ k h hrest
          rwa [lookupA_insertA_ne _ _ hkey] at this
      | str s =>
        simp only [newLoop] at h
        split_ifs at h with h1 h2
        · have := ih _ _ k h hrest
          exact this
        · split at h
          · cases h
          · have := ih _ _ k h hrest
            rwa [lookupA_insertA_ne _ _ hkey] at this
      | int n =>
        simp only [newLoop] at h
        have := ih _ _ k h hrest
        exact this
      | boolean b =>
        simp only [newLoop] at h
        have := ih _ _ k h hrest
        exact this

/-! ### C2: field order is an order-preserving copy of the table's keys -/

/-- C2: for every table accepted by `ObjectDefinition::new` (table keys are
unique, being map keys), `field_order` is exactly the list of the table's
keys in their original order, and a key whose value is neither a table nor
a string is added to neither `fields` nor `children`. -/
theorem new_field_order_exact (name : String) (tbl : List (String × TomlValue))
    (od : ObjectDefinition) (h : ObjectDefinition.new name tbl = .ok od)
    (hnd : (tbl.map Prod.fst).Nodup) :
    od.field_order = tbl.map Prod.fst ∧
    ∀ k v, (k, v) ∈ tbl → v.isTable = false → v.isStr = false →
      lookupA od.fields k = none ∧ lookupA od.children k = none := by
  unfold ObjectDefinition.new at h
  split_ifs at h with hres
  constructor
  · simpa using newLoop_field_order tbl _ od h
  · intro k v hmem ht hs
    have hall : ∀ v', (k, v') ∈ tbl → v'.isTable = false ∧ v'.isStr = false := by
      intro v' hv'
      have : v' = v := keys_nodup_eq hnd hv' hmem
      subst this
      exact ⟨ht, hs⟩
    have := newLoop_skip tbl _ od k h hall
    simpa [lookupA] using this

/-- Witness for C2 at a concrete table holding a string field, an ignored
integer entry and a nested table. -/
theorem new_field_order_exact_witness :
    (⟨"x", [("a", .string)], ["a", "b", "c"], none,
      [("c", ⟨"c", [], [], none, []⟩)]⟩ : ObjectDefinition).field_order = ["a", "b", "c"] ∧
    (lookupA (⟨"x", [("a", .string)], ["a", "b", "c"], none,
        [("c", ⟨"c", [], [], none, []⟩)]⟩ : ObjectDefinition).fields "b" = none ∧
      lookupA (⟨"x", [("a", .string)], ["a", "b", "c"], none,
        [("c", ⟨"c", [], [], none, []⟩)]⟩ : ObjectDefinition).children "b" = none) := by
  have h : ObjectDefinition.new "x" [("a", .str "string"), ("b", .int 3), ("c", .table [])] =
      .ok ⟨"x", [("a", .string)], ["a", "b", "c"], none, [("c", ⟨"c", [], [], none, []⟩)]⟩ := by
    simp [ObjectDefinition.new, newLoop, insertA, is_reserved_field, reservedFieldNames,
      TEMPLATE, FieldType.from_str]
  have hm := new_field_order_exact "x"
    [("a", .str "string"), ("b", .int 3), ("c", .table [])] _ h (by decide)
  exact ⟨hm.1, hm.2 "b" (.int 3) (by simp) rfl rfl⟩

/-! ### C6: nested tables become children; `from_table` skips non-tables -/

/-- A nested-table entry is parsed recursively into `children` and never
into `fields`. -/
theorem newLoop_child (l : List (String × TomlValue)) :
    ∀ acc od k t, newLoop acc l = .ok od →
    (k, TomlValue.table t) ∈ l → (l.map Prod.fst).Nodup →
    lookupA acc.fields k = none →
    (∃ c, ObjectDefinition.new k t = .ok c ∧ lookupA od.children k = some c) ∧
    lookupA od.fields k = none := by
  induction l with
  | nil =>
    intro _ _ _ _ _ hmem _ _
    cases hmem
  | cons p rest ih =>
    intro acc od k t h hmem hnd hf
    obtain ⟨key, v⟩ := p
    simp only [List.map_cons, List.nodup_cons] at hnd
    rcases List.mem_cons.mp hmem with he | he
    · rw [Prod.mk.injEq] at he
      obtain ⟨h1, h2⟩ := he
      subst h1
      subst h2
      simp only [newLoop] at h
      split at h
      · cases h
      · rename_i child hnew
        have hfresh : ∀ v, (k, v) ∈ rest → v.isTable = false ∧ v.isStr = false := by
          intro v hv
          exact absurd (List.mem_map_of_mem Prod.fst hv) hnd.1
        have hsk := newLoop_skip rest _ od k h hfresh
        refine ⟨⟨child, hnew, ?_⟩, ?_⟩
        · rw [hsk.2]
          exact lookupA_insertA_self _ _ _
        · rw [hsk.1]
          exact hf
    · have hkmem : k ∈ List.map Prod.fst rest := List.mem_map_of_mem Prod.fst he
      have hkey : key ≠ k := fun hkk => hnd.1 (hkk ▸ hkmem)
      cases v with
      | table t' =>
        simp only [newLoop] at h
        split at h
        · cases h
        · have := ih _ _ k t h he hnd.2 hf
          exact this
      | str s =>
        simp only [newLoop] at h
        split_ifs at h with h1 h2
        · exact ih _ _ k t h he hnd.2 hf
        · split at h
          · cases h
          · have := ih _ _ k t h he hnd.2 (by rwa [lookupA_insertA_ne _ _ hkey])
            exact this
      | int n =>
        simp only [newLoop] at h
        exact ih _ _ k t h he hnd.2 hf
      | boolean b =>
        simp only [newLoop] at h
        exact ih _ _ k t h he hnd.2 hf

/-- The loop of `from_table` leaves keys alone whose every occurrence is
not a table. -/
theorem fromTableLoop_skip (l : List (String × TomlValue)) :
    ∀ objects m k, fromTableLoop objects l = .ok m →
    (∀ v, (k, v) ∈ l → v.isTable = false) →
    lookupA m k = lookupA objects k := by
  induction l with
  | nil =>
    intro objects m k h _
    simp only [fromTableLoop] at h
    cases h
    rfl
  | cons p rest ih =>
    intro objects m k h hk
    obtain ⟨name, v⟩ := p
    have hrest : ∀ v, (k, v) ∈ rest → v.isTable = false :=
      fun v hv => hk v (List.mem_cons_of_mem _ hv)
    cases v with
    | table t =>
      by_cases hn : name = k
      · subst hn
        exact absurd (hk _ (List.mem_cons_self _ _)) (by simp [TomlValue.isTable])
      · simp only [fromTableLoop] at h
        split at h
        · cases h
        · have := ih _ _ k h hrest
          rwa [lookupA_insertA_ne _ _ hn] at this
    | str s =>
      simp only [fromTableLoop] at h
      exact ih _ _ k h hrest
    | int n =>
      simp only [fromTableLoop] at h
      exact ih _ _ k h hrest
    | boolean b =>
      simp only [fromTableLoop] at h
      exact ih _ _ k h hrest

/-- The loop of `from_table` only fails through a table-valued entry. -/
theorem fromTableLoop_total (l : List (String × TomlValue)) :
    ∀ objects, (∀ k t, (k, TomlValue.table t) ∈ l → ∃ od, ObjectDefinition.new k t = .ok od) →
    ∃ m, fromTableLoop objects l = .ok m := by
  induction l with
  | nil =>
    intro objects _
    exact ⟨objects, rfl⟩
  | cons p rest ih =>
    intro objects hok
    obtain ⟨name, v⟩ := p
    have hrest : ∀ k t, (k, TomlValue.table t) ∈ rest → ∃ od, ObjectDefinition.new k t = .ok od :=
      fun k t hmem => hok k t (List.mem_cons_of_mem _ hmem)
    cases v with
    | table t =>
      obtain ⟨od, hod⟩ := hok name t (List.mem_cons_self _ _)
      obtain ⟨m, hm⟩ := ih (insertA objects name od) hrest
      refine ⟨m, ?_⟩
      simp only [fromTableLoop, hod]
      exact hm
    | str s =>
      obtain ⟨m, hm⟩ := ih objects hrest
      exact ⟨m, by simp only [fromTableLoop]; exact hm⟩
    | int n =>
      obtain ⟨m, hm⟩ := ih objects hrest
      exact ⟨m, by simp only [fromTableLoop]; exact hm⟩
    | boolean b =>
      obtain ⟨m, hm⟩ := ih objects hrest
      exact ⟨m, by simp only [fromTableLoop]; exact hm⟩

/-- C6: every nested-table entry of a table accepted by
`ObjectDefinition::new` is parsed recursively as a child keyed by the
entry's name and never inserted into `fields`; and
`ObjectDefinition::from_table` processes only table-valued top-level
entries, skipping all others without error. -/
theorem nested_tables_children_from_table_skips :
    (∀ name tbl od k t, ObjectDefinition.new name tbl = .ok od →
      (k, TomlValue.table t) ∈ tbl → (tbl.map Prod.fst).Nodup →
      (∃ c, ObjectDefinition.new k t = .ok c ∧ lookupA od.children k = some c) ∧
      lookupA od.fields k = none) ∧
    (∀ tbl m k v, ObjectDefinition.from_table tbl = .ok m → (tbl.map Prod.fst).Nodup →
      (k, v) ∈ tbl → v.isTable = false → lookupA m k = none) ∧
    (∀ tbl, (∀ k t, (k, TomlValue.table t) ∈ tbl → ∃ od, ObjectDefinition.new k t = .ok od) →
      ∃ m, ObjectDefinition.from_table tbl = .ok m) := by
  refine ⟨?_, ?_, ?_⟩
  · intro name tbl od k t h hmem hnd
    unfold ObjectDefinition.new at h
    split_ifs at h with hres
    exact newLoop_child tbl _ od k t h hmem hnd rfl
  · intro tbl m k v h hnd hmem ht
    have hall : ∀ v', (k, v') ∈ tbl → v'.isTable = false := by
      intro v' hv'
      have : v' = v := keys_nodup_eq hnd hv' hmem
      rw [this]
      exact ht
    have := fromTableLoop_skip tbl [] m k h hall
    simpa [lookupA] using this
  · intro tbl hok
    exact fromTableLoop_total tbl [] hok

/-- Witness for C6 at a concrete table with one nested table and one
boolean entry. -/
theorem nested_tables_children_witness :
    ((∃ c, ObjectDefinition.new "d" [("u", .str "string")] = .ok c ∧
        lookupA (⟨"x", [], ["d", "b"], none,
          [("d", ⟨"d", [("u", .string)], ["u"], none, []⟩)]⟩ : ObjectDefinition).children "d" =
          some c) ∧
      lookupA (⟨"x", [], ["d", "b"], none,
        [("d", ⟨"d", [("u", .string)], ["u"], none, []⟩)]⟩ : ObjectDefinition).fields "d" =
        none) ∧
    lookupA [(("d" : String), (⟨"d", [("u", .string)], ["u"], none, []⟩ : ObjectDefinition))]
      "b" = none ∧
    ∃ m, ObjectDefinition.from_table [(("d" : String), TomlValue.table [("u", .str "string")])] =
      .ok m := by
  have hd : ObjectDefinition.new "d" [("u", .str "string")] =
      .ok ⟨"d", [("u", .string)], ["u"], none, []⟩ := by
    simp [ObjectDefinition.new, newLoop, insertA, is_reserved_field, reservedFieldNames,
      TEMPLATE, FieldType.from_str]
  have hx : ObjectDefinition.new "x"
      [("d", .table [("u", .str "string")]), ("b", .boolean true)] =
      .ok ⟨"x", [], ["d", "b"], none, [("d", ⟨"d", [("u", .string)], ["u"], none, []⟩)]⟩ := by
    simp [ObjectDefinition.new, newLoop, insertA, is_reserved_field, reservedFieldNames,
      TEMPLATE, FieldType.from_str]
  have hft : ObjectDefinition.from_table
      [(("d" : String), TomlValue.table [("u", .str "string")]), ("b", .boolean true)] =
      .ok [("d", ⟨"d", [("u", .string)], ["u"], none, []⟩)] := by
    simp [ObjectDefinition.from_table, fromTableLoop, insertA, ObjectDefinition.new, newLoop,
      is_reserved_field, reservedFieldNames, TEMPLATE, FieldType.from_str]
  refine ⟨(nested_tables_children_from_table_skips.1 "x"
      [("d", .table [("u", .str "string")]), ("b", .boolean true)] _ "d"
      [("u", .str "string")] hx (by simp) (by decide)), ?_, ?_⟩
  · exact nested_tables_children_from_table_skips.2.1
      [(("d" : String), TomlValue.table [("u", .str "string")]), ("b", .boolean true)] _ "b"
      (.boolean true) hft (by decide) (by simp) rfl
  · exact nested_tables_children_from_table_skips.2.2
      [(("d" : String), TomlValue.table [("u", .str "string")])]
      (by intro k t hmem; simp at hmem; exact ⟨_, hmem.2 ▸ hmem.1 ▸ hd⟩)

/-! ### C3: reserved names -/

/-- A string-valued entry keyed by a reserved word other than the template
keyword makes the loop fail. -/
theorem newLoop_reserved_str (l : List (String × TomlValue)) :
    ∀ acc od k s, newLoop acc l = .ok od → (k, TomlValue.str s) ∈ l →
    k ≠ TEMPLATE → is_reserved_field k = true → False := by
  induction l with
  | nil =>
    intro _ _ _ _ _ hmem _ _
    cases hmem
  | cons p rest ih =>
    intro acc od k s h hmem hkt hres
    obtain ⟨key, v⟩ := p
    rcases List.mem_cons.mp hmem with he | he
    · rw [Prod.mk.injEq] at he
      obtain ⟨h1, h2⟩ := he
      subst h1
      subst h2
      simp only [newLoop] at h
      rw [if_neg hkt, if_pos hres] at h
      cases h
    · cases v with
      | table t' =>
        simp only [newLoop] at h
        split at h
        · cases h
        · exact ih _ _ k s h he hkt hres
      | str s' =>
        simp only [newLoop] at h
        by_cases h1 : key = TEMPLATE
        · rw [if_pos h1] at h
          exact ih _ _ k s h he hkt hres
        · rw [if_neg h1] at h
          by_cases h2 : is_reserved_field key = true
          · rw [if_pos h2] at h
            cases h
          · rw [if_neg h2] at h
            split at h
            · cases h
            · exact ih _ _ k s h he hkt hres
      | int n =>
        simp only [newLoop] at h
        exact ih _ _ k s h he hkt hres
      | boolean b =>
        simp only [newLoop] at h
        exact ih _ _ k s h he hkt hres

/-- A table-valued entry keyed by a reserved word makes the loop fail,
through the recursive reserved-name check. -/
theorem newLoop_reserved_table (l : List (String × TomlValue)) :
    ∀ acc od k t, newLoop acc l = .ok od → (k, TomlValue.table t) ∈ l →
    is_reserved_field k = true → False := by
  induction l with
  | nil =>
    intro _ _ _ _ _ hmem _
    cases hmem
  | cons p rest ih =>
    intro acc od k t h hmem hres
    obtain ⟨key, v⟩ := p
    rcases List.mem_cons.mp hmem with he | he
    · rw [Prod.mk.injEq] at he
      obtain ⟨h1, h2⟩ := he
      subst h1
      subst h2
      simp only [newLoop] at h
      split at h
      · cases h
      · rename_i child heq
        unfold ObjectDefinition.new at heq
        rw [if_pos hres] at heq
        cases heq
    · cases v with
      | table t' =>
        simp only [newLoop] at h
        split at h
        · cases h
        · exact ih _ _ k t h he hres
      | str s' =>
        simp only [newLoop] at h
        by_cases h1 : key = TEMPLATE
        · rw [if_pos h1] at h
          exact ih _ _ k t h he hres
        · rw [if_neg h1] at h
          by_cases h2 : is_reserved_field key = true
          · rw [if_pos h2] at h
            cases h
          · rw [if_neg h2] at h
            split at h
            · cases h
            · exact ih _ _ k t h he hres
      | int n =>
        simp only [newLoop] at h
        exact ih _ _ k t h he hres
      | boolean b =>
        simp only [newLoop] at h
        exact ih _ _ k t h he hres

/-- Entries never keyed by the template keyword leave the accumulated
template binding unchanged. -/
theorem newLoop_template_frame (l : List (String × TomlValue)) :
    ∀ acc od, newLoop acc l = .ok od → TEMPLATE ∉ l.map Prod.fst →
    od.template = acc.template := by
  induction l with
  | nil =>
    intro acc od h _
    simp only [newLoop] at h
    cases h
    rfl
  | cons p rest ih =>
    intro acc od h hT
    obtain ⟨key, v⟩ := p
    simp only [List.map_cons, List.mem_cons] at hT
    push_neg at hT
    have hkey : key ≠ TEMPLATE := fun hk => hT.1 hk.symm
    cases v with
    | table t =>
      simp only [newLoop] at h
      split at h
      · cases h
      · have := ih _ _ h hT.2
        exact this
    | str s =>
      simp only [newLoop] at h
      rw [if_neg hkey] at h
      by_cases h2 : is_reserved_field key = true
      · rw [if_pos h2] at h
        cases h
      · rw [if_neg h2] at h
        split at h
        · cases h
        · have := ih _ _ h hT.2
          exact this
    | int n =>
      simp only [newLoop] at h
      have := ih _ _ h hT.2
      exact this
    | boolean b =>
      simp only [newLoop] at h
      have := ih _ _ h hT.2
      exact this

/-- A string-valued entry keyed by the template keyword is recorded as the
template binding. -/
theorem newLoop_template_set (l : List (String × TomlValue)) :
    ∀ acc od s, newLoop acc l = .ok od → (TEMPLATE, TomlValue.str s) ∈ l →
    (l.map Prod.fst).Nodup → od.template = some s := by
  induction l with
  | nil =>
    intro _ _ _ _ hmem _
    cases hmem
  | cons p rest ih =>
    intro acc od s h hmem hnd
    obtain ⟨key, v⟩ := p
    simp only [List.map_cons, List.nodup_cons] at hnd
    rcases List.mem_cons.mp hmem with he | he
    · rw [Prod.mk.injEq] at he
      obtain ⟨h1, h2⟩ := he
      subst h2
      rw [← h1] at hnd h
      simp only [newLoop] at h
      simp only [if_true] at h
      have := newLoop_template_frame rest _ od h hnd.1
      rw [this]
    · have hTmem : TEMPLATE ∈ List.map Prod.fst rest := List.mem_map_of_mem Prod.fst he
      have hkey : key ≠ TEMPLATE := fun hk => hnd.1 (hk ▸ hTmem)
      cases v with
      | table t =>
        simp only [newLoop] at h
        split at h
        · cases h
        · exact ih _ _ s h he hnd.2
      | str s' =>
        simp only [newLoop] at h
        rw [if_neg hkey] at h
        by_cases h2 : is_reserved_field key = true
        · rw [if_pos h2] at h
          cases h
        · rw [if_neg h2] at h
          split at h
          · cases h
          · exact ih _ _ s h he hnd.2
      | int n =>
        simp only [newLoop] at h
        exact ih _ _ s h he hnd.2
      | boolean b =>
        simp only [newLoop] at h
        exact ih _ _ s h he hnd.2

/-- The loop never inserts the template keyword into `fields`. -/
theorem newLoop_fields_no_template (l : List (String × TomlValue)) :
    ∀ acc od, newLoop acc l = .ok od → lookupA acc.fields TEMPLATE = none →
    lookupA od.fields TEMPLATE = none := by
  induction l with
  | nil =>
    intro acc od h hf
    simp only [newLoop] at h
    cases h
    exact hf
  | cons p rest ih =>
    intro acc od h hf
    obtain ⟨key, v⟩ := p
    cases v with
    | table t =>
      simp only [newLoop] at h
      split at h
      · cases h
      · have := ih _ _ h hf
        exact this
    | str s =>
      simp only [newLoop] at h
      by_cases h1 : key = TEMPLATE
      · rw [if_pos h1] at h
        have := ih _ _ h hf
        exact this
      · rw [if_neg h1] at h
        by_cases h2 : is_reserved_field key = true
        · rw [if_pos h2] at h
          cases h
        · rw [if_neg h2] at h
          split at h
          · cases h
          · have := ih _ _ h (by rwa [lookupA_insertA_ne _ _ h1])
            exact this
    | int n =>
      simp only [newLoop] at h
      have := ih _ _ h hf
      exact this
    | boolean b =>
      simp only [newLoop] at h
      have := ih _ _ h hf
      exact this

/-- C3 amended: a reserved schema name is rejected with a reserved-name
error; a table-valued (child) entry keyed by a reserved word and a
string-valued (field) entry keyed by a reserved word other than the
template keyword both make `ObjectDefinition::new` fail, producing no
ObjectDefinition; but a string-valued entry keyed by the template keyword
is not rejected: it is recorded as the schema's template binding and never
inserted into `fields`. -/
theorem reserved_names_rejected :
    (∀ name tbl, is_reserved_field name = true →
      ObjectDefinition.new name tbl = .error (.invalid (.ReservedObjectNameError name))) ∧
    (∀ name tbl od k t, (k, TomlValue.table t) ∈ tbl → is_reserved_field k = true →
      ObjectDefinition.new name tbl ≠ .ok od) ∧
    (∀ name tbl od k s, (k, TomlValue.str s) ∈ tbl → is_reserved_field k = true →
      k ≠ TEMPLATE → ObjectDefinition.new name tbl ≠ .ok od) ∧
    (∀ name tbl od s, ObjectDefinition.new name tbl = .ok od →
      (TEMPLATE, TomlValue.str s) ∈ tbl → (tbl.map Prod.fst).Nodup →
      od.template = some s ∧ lookupA od.fields TEMPLATE = none) := by
  refine ⟨?_, ?_, ?_, ?_⟩
  · intro name tbl hres
    unfold ObjectDefinition.new
    rw [if_pos hres]
  · intro name tbl od k t hmem hres h
    unfold ObjectDefinition.new at h
    split_ifs at h with hname
    exact newLoop_reserved_table tbl _ od k t h hmem hres
  · intro name tbl od k s hmem hres hkt h
    unfold ObjectDefinition.new at h
    split_ifs at h with hname
    exact newLoop_reserved_str tbl _ od k s h hmem hkt hres
  · intro name tbl od s h hmem hnd
    unfold ObjectDefinition.new at h
    split_ifs at h with hname
    exact ⟨newLoop_template_set tbl _ od s h hmem hnd,
      newLoop_fields_no_template tbl _ od h rfl⟩

/-- Witness for C3 at concrete inputs: the reserved schema name
`"template"`, a reserved child name, a reserved field name `"order"`, and a
template-keyword entry. -/
theorem reserved_names_rejected_witness :
    ObjectDefinition.new "template" [] =
      .error (.invalid (.ReservedObjectNameError "template")) ∧
    ObjectDefinition.new "x" [("path", TomlValue.table [])] ≠
      .ok ⟨"x", [], ["path"], none, [("path", ⟨"path", [], [], none, []⟩)]⟩ ∧
    ObjectDefinition.new "x" [("order", TomlValue.str "number")] ≠
      .ok ⟨"x", [("order", .number)], ["order"], none, []⟩ ∧
    ((⟨"x", [], ["template"], some "artist", []⟩ : ObjectDefinition).template = some "artist" ∧
      lookupA (⟨"x", [], ["template"], some "artist", []⟩ : ObjectDefinition).fields TEMPLATE =
        none) := by
  have h : ObjectDefinition.new "x" [("template", TomlValue.str "artist")] =
      .ok ⟨"x", [], ["template"], some "artist", []⟩ := by
    simp [ObjectDefinition.new, newLoop, is_reserved_field, reservedFieldNames, TEMPLATE]
  refine ⟨reserved_names_rejected.1 "template" [] (by decide),
    reserved_names_rejected.2.1 "x" [("path", TomlValue.table [])] _ "path" []
      (by simp) (by decide),
    reserved_names_rejected.2.2.1 "x" [("order", TomlValue.str "number")] _ "order" "number"
      (by simp) (by decide) (by decide),
    reserved_names_rejected.2.2.2 "x" [("template", TomlValue.str "artist")] _ "artist" h
      (by simp [TEMPLATE]) (by decide)⟩

/-- C3 is false as stated: a string field named by the reserved template
keyword does not produce a reserved-name error — `ObjectDefinition::new`
accepts it and records the value as the template binding. -/
theorem template_field_not_rejected :
    ObjectDefinition.new "x" [("template", TomlValue.str "string")] =
      .ok ⟨"x", [], ["template"], some "string", []⟩ := by
  simp [ObjectDefinition.new, newLoop, is_reserved_field, reservedFieldNames, TEMPLATE]

/-! ### C10: structural invariant of parsed definitions -/

mutual

/-- Well-formedness of the key structure of a TOML value: every table,
recursively, has pairwise-distinct keys (a TOML table is a map). -/
def TomlValue.wfKeys : TomlValue → Bool
  | .table t => decide (t.map Prod.fst).Nodup && wfEntries t
  | _ => true

/-- Key well-formedness of each entry of a table. -/
def wfEntries : List (String × TomlValue) → Bool
  | [] => true
  | (_, v) :: rest => v.wfKeys && wfEntries rest

end

mutual

/-- The structural invariant of C10: the key sets of `fields` and
`children` are disjoint, every field key and every child key occurs in
`field_order`, and the same holds recursively for every child. -/
def ObjectDefinition.inv : ObjectDefinition → Bool
  | ⟨_, fields, field_order, _, children⟩ =>
    fields.all (fun p => field_order.contains p.1 &&
      !((children.map Prod.fst).contains p.1)) &&
    children.all (fun p => field_order.contains p.1) &&
    childrenInv children

/-- The invariant applied to each child. -/
def childrenInv : List (String × ObjectDefinition) → Bool
  | [] => true
  | (_, c) :: rest => c.inv && childrenInv rest

end

theorem wfEntries_iff (l : List (String × TomlValue)) :
    wfEntries l = true ↔ ∀ p ∈ l, p.2.wfKeys = true := by
  induction l with
  | nil => simp [wfEntries]
  | cons p rest ih =>
    obtain ⟨k, v⟩ := p
    simp [wfEntries, ih]

theorem childrenInv_iff (l : List (String × ObjectDefinition)) :
    childrenInv l = true ↔ ∀ p ∈ l, p.2.inv = true := by
  induction l with
  | nil => simp [childrenInv]
  | cons p rest ih =>
    obtain ⟨k, c⟩ := p
    simp [childrenInv, ih]

theorem inv_iff (od : ObjectDefinition) :
    od.inv = true ↔
    ((∀ p ∈ od.fields, p.1 ∈ od.field_order ∧ p.1 ∉ od.children.map Prod.fst) ∧
      (∀ p ∈ od.children, p.1 ∈ od.field_order) ∧
      (∀ p ∈ od.children, p.2.inv = true)) := by
  obtain ⟨n, f, fo, t, c⟩ := od
  simp [ObjectDefinition.inv, childrenInv_iff, and_assoc]

/-- The loop of `ObjectDefinition::new` preserves the structural invariant
of the accumulator, given that the remaining keys are fresh and every
successfully parsed nested table satisfies the invariant. -/
theorem newLoop_inv (l : List (String × TomlValue)) :
    ∀ acc od, newLoop acc l = .ok od →
    (l.map Prod.fst).Nodup →
    (∀ k t od', (k, TomlValue.table t) ∈ l → ObjectDefinition.new k t = .ok od' →
      od'.inv = true) →
    (∀ k, k ∈ l.map Prod.fst → k ∉ acc.fields.map Prod.fst ∧ k ∉ acc.children.map Prod.fst) →
    (∀ p ∈ acc.fields, p.1 ∈ acc.field_order ∧ p.1 ∉ acc.children.map Prod.fst) →
    (∀ p ∈ acc.children, p.1 ∈ acc.field_order) →
    (∀ p ∈ acc.children, p.2.inv = true) →
    od.inv = true := by
  induction l with
  | nil =>
    intro acc od h _ _ _ hf hc hci
    simp only [newLoop] at h
    cases h
    exact (inv_iff acc).mpr ⟨hf, hc, hci⟩
  | cons p rest ih =>
    intro acc od h hnd hch hfresh hf hc hci
    obtain ⟨key, v⟩ := p
    simp only [List.map_cons, List.nodup_cons] at hnd
    have hkeyf := hfresh key (by simp)
    have hrestch : ∀ k t od', (k, TomlValue.table t) ∈ rest →
        ObjectDefinition.new k t = .ok od' → od'.inv = true :=
      fun k t od' hm => hch k t od' (List.mem_cons_of_mem _ hm)
    cases v with
    | table t =>
      simp only [newLoop] at h
      split at h
      · cases h
      · rename_i child heq
        refine ih _ _ h hnd.2 hrestch ?_ ?_ ?_ ?_
        · intro k hk
          have hkk : k ≠ key := fun hkk => hnd.1 (hkk ▸ hk)
          have hof := hfresh k (List.mem_cons_of_mem _ hk)
          refine ⟨hof.1, ?_⟩
          intro hmem
          rcases (mem_keys_insertA _ _ _ _).mp hmem with h' | h'
          · exact hkk h'
          · exact hof.2 h'
        · intro q hq
          have hqf := hf q hq
          have hqk : q.1 ≠ key := fun he =>
            hkeyf.1 (he ▸ List.mem_map_of_mem Prod.fst hq)
          refine ⟨List.mem_append_left _ hqf.1, ?_⟩
          intro hmem
          rcases (mem_keys_insertA _ _ _ _).mp hmem with h' | h'
          · exact hqk h'
          · exact hqf.2 h'
        · intro q hq
          rcases mem_insertA _ _ _ hq with h' | h'
          · rw [h']
            exact List.mem_append_right _ (by simp)
          · exact List.mem_append_left _ (hc q h')
        · intro q hq
          rcases mem_insertA _ _ _ hq with h' | h'
          · rw [h']
            exact hch key t child (List.mem_cons_self _ _) heq
          · exact hci q h'
    | str s =>
      simp only [newLoop] at h
      by_cases h1 : key = TEMPLATE
      · rw [if_pos h1] at h
        refine ih _ _ h hnd.2 hrestch ?_ ?_ ?_ ?_
        · intro k hk
          exact hfresh k (List.mem_cons_of_mem _ hk)
        · intro q hq
          have hqf := hf q hq
          exact ⟨List.mem_append_left _ hqf.1, hqf.2⟩
        · intro q hq
          exact List.mem_append_left _ (hc q hq)
        · exact hci
      · rw [if_neg h1] at h
        by_cases h2 : is_reserved_field key = true
        · rw [if_pos h2] at h
          cases h
        · rw [if_neg h2] at h
          split at h
          · cases h
          · rename_i ft heq
            refine ih _ _ h hnd.2 hrestch ?_ ?_ ?_ ?_
            · intro k hk
              have hkk : k ≠ key := fun hkk => hnd.1 (hkk ▸ hk)
              have hof := hfresh k (List.mem_cons_of_mem _ hk)
              refine ⟨?_, hof.2⟩
              intro hmem
              rcases (mem_keys_insertA _ _ _ _).mp hmem with h' | h'
              · exact hkk h'
              · exact hof.1 h'
            · intro q hq
              rcases mem_insertA _ _ _ hq with h' | h'
              · rw [h']
                exact ⟨List.mem_append_right _ (by simp), hkeyf.2⟩
              · have hqf := hf q h'
                exact ⟨List.mem_append_left _ hqf.1, hqf.2⟩
            · intro q hq
              exact List.mem_append_left _ (hc q hq)
            · exact hci
    | int n =>
      simp only [newLoop] at h
      refine ih _ _ h hnd.2 hrestch ?_ ?_ ?_ ?_
      · intro k hk
        exact hfresh k (List.mem_cons_of_mem _ hk)
      · intro q hq
        have hqf := hf q hq
        exact ⟨List.mem_append_left _ hqf.1, hqf.2⟩
      · intro q hq
        exact List.mem_append_left _ (hc q hq)
      · exact hci
    | boolean b =>
      simp only [newLoop] at h
      refine ih _ _ h hnd.2 hrestch ?_ ?_ ?_ ?_
      · intro k hk
        exact hfresh k (List.mem_cons_of_mem _ hk)
      · intro q hq
        have hqf := hf q hq
        exact ⟨List.mem_append_left _ hqf.1, hqf.2⟩
      · intro q hq
        exact List.mem_append_left _ (hc q hq)
      · exact hci

/-- Strong-induction wrapper for the invariant over nested tables. -/
theorem new_inv_aux (n : Nat) : ∀ tbl : List (String × TomlValue), sizeOf tbl ≤ n →
    ∀ name od, ObjectDefinition.new name tbl = .ok od →
    TomlValue.wfKeys (.table tbl) = true → od.inv = true := by
  induction n with
  | zero =>
    intro tbl hsz name od h hwf
    have hpos : 0 < sizeOf tbl := by
      cases tbl <;> simp_arith
    omega
  | succ n ihn =>
    intro tbl hsz name od h hwf
    unfold ObjectDefinition.new at h
    split_ifs at h with hres
    simp only [TomlValue.wfKeys, Bool.and_eq_true, decide_eq_true_eq] at hwf
    refine newLoop_inv tbl _ od h hwf.1 ?_ (by simp) (by simp) (by simp) (by simp)
    intro k t od' hmem hnew
    have hwfe : TomlValue.wfKeys (.table t) = true :=
      (wfEntries_iff tbl).mp hwf.2 (k, .table t) hmem
    have hszm := List.sizeOf_lt_of_mem hmem
    have hsz' : sizeOf t ≤ n := by
      simp only [Prod.mk.sizeOf_spec, TomlValue.table.sizeOf_spec] at hszm
      omega
    exact ihn t hsz' k od' hnew hwfe

/-- C10: every `ObjectDefinition` returned by `ObjectDefinition::new` on a
key-wellformed table (TOML tables are maps, so keys are unique at every
level) satisfies, recursively for itself and all of its children: the key
sets of `fields` and `children` are disjoint, and every key of `fields` and
of `children` occurs in `field_order`. -/
theorem new_definition_invariant (name : String) (tbl : List (String × TomlValue))
    (od : ObjectDefinition) (h : ObjectDefinition.new name tbl = .ok od)
    (hwf : TomlValue.wfKeys (.table tbl) = true) : od.inv = true :=
  new_inv_aux (sizeOf tbl) tbl le_rfl name od h hwf

/-- Witness for C10 at a concrete nested table. -/
theorem new_definition_invariant_witness :
    (⟨"x", [("name", .string)], ["name", "td"], none,
      [("td", ⟨"td", [("date", .date)], ["date"], none, []⟩)]⟩ : ObjectDefinition).inv =
      true := by
  have h : ObjectDefinition.new "x"
      [("name", .str "string"), ("td", .table [("date", .str "date")])] =
      .ok ⟨"x", [("name", .string)], ["name", "td"], none,
        [("td", ⟨"td", [("date", .date)], ["date"], none, []⟩)]⟩ := by
    simp [ObjectDefinition.new, newLoop, insertA, is_reserved_field, reservedFieldNames,
      TEMPLATE, FieldType.from_str]
  exact new_definition_invariant "x"
    [("name", .str "string"), ("td", .table [("date", .str "date")])] _ h
    (by simp [TomlValue.wfKeys, wfEntries])

end Cms
